import Mathlib

/-!
# TrueKey — verification of the streaming note detector and key scorer

Shallow embedding of the two algorithmic subsystems of the TrueKey
repository:

* `src/utils/pitchDetection.ts` — the streaming pitch/note detector
  (`createPitchDetector`): silence gating, note-stability debouncing,
  duration tracking and note finalization, plus the frequency → note
  mapper `frequencyToNote`.
* `src/hooks/useAudioCapture.ts` (key-detection utility section) — the
  duration-weighted key scorer: `normalizeToPitchClass`,
  `getScaleNotes`, `calculateScaleFit`, `scoreKeyWithDuration`,
  `areRelativeKeys` and `analyzeKeyWithDuration`.

Numbers: JavaScript `number` arithmetic is idealized as exact rational
arithmetic (`ℚ`); the only transcendental computation (`Math.log2` in
`frequencyToNote`) is idealized over `ℝ`.  `Math.round` rounds half
toward +∞, which is `⌊x + 1/2⌋`.  JS `%` on integers is the truncated
remainder (`Int.tmod`); `Math.floor` of an integer quotient is floored
division (`Int.fdiv`).
-/

attribute [local semireducible] Rat.add Rat.mul Rat.inv Rat.sub

/-- JavaScript `Math.round` on an exact rational: round half toward +∞,
i.e. `⌊x + 1/2⌋` (computable form; `jsRound_eq_round` relates it to
Mathlib's `round`, which uses the same rule). -/
def jsRound (x : ℚ) : ℤ :=
  Rat.floor (x + 1 / 2)

theorem jsRound_eq_round (x : ℚ) : jsRound x = round x := by
  rw [jsRound, round_eq, Rat.floor_def, Rat.floor_def']

namespace PitchDetection

/-- `NOTE_NAMES` from `pitchDetection.ts`: note names in chromatic order
(one array in the source; split into an append of two literals here). -/
def NOTE_NAMES : List String :=
  ["C", "C#", "D", "D#", "E", "F"] ++ ["F#", "G", "G#", "A", "A#", "B"]

/-- `RMS_THRESHOLD`: RMS threshold for silence filtering. -/
def RMS_THRESHOLD : ℚ := 2 / 100

/-- `STABILITY_THRESHOLD`: number of consecutive detections required for
note stability. -/
def STABILITY_THRESHOLD : ℕ := 3

/-- `MIN_NOTE_DURATION_MS`: minimum duration in ms for a note to be
considered valid. -/
def MIN_NOTE_DURATION_MS : ℚ := 80

/-- `PitchResult` of `pitchDetection.ts` (real-time result, without
duration). -/
structure PitchResult where
  frequency : ℚ
  note : String
  octave : ℤ
  noteName : String
  cents : ℤ
deriving DecidableEq

/-- `DetectedNote` of `pitchDetection.ts`: a finalized note with duration
information.  `durationMs` is `Math.round(endTime - startTime)`. -/
structure DetectedNote where
  noteName : String
  note : String
  octave : ℤ
  frequency : ℚ
  cents : ℤ
  durationMs : ℤ
  startTime : ℚ
  endTime : ℚ
deriving DecidableEq

/-- The mutable closure state of `createPitchDetector`:
`lastDetectedNote`, `consecutiveCount`, `lastStableNote`,
`currentNoteStartTime` and `currentNoteData`. -/
structure DetectorState where
  lastDetectedNote : Option String
  consecutiveCount : ℕ
  lastStableNote : Option String
  currentNoteStartTime : Option ℚ
  currentNoteData : Option PitchResult
deriving DecidableEq

/-- The state of a freshly created detector: every field starts at
`null` / `0`. -/
def initialState : DetectorState :=
  { lastDetectedNote := none, consecutiveCount := 0, lastStableNote := none,
    currentNoteStartTime := none, currentNoteData := none }

/-- One audio frame, reduced to the two observations `process` makes of
the buffer: `calculateRMS(buffer)` and `detectPitch(buffer)` (the YIN
estimator of the external `pitchfinder` library, an opaque collaborator;
`none` stands for `null`/`undefined`). -/
structure Frame where
  rms : ℚ
  pitch : Option ℚ
deriving DecidableEq

/-- `finalizeCurrentNote` of `pitchDetection.ts`: if a note is being
tracked (and a completion callback is registered, which we model as
always the case), compute its duration from the current time `now`
(`performance.now()`); deliver it to the callback only when
`durationMs >= MIN_NOTE_DURATION_MS`, and clear the tracking fields
either way.  Returns (new state, the list of notes delivered to
`onNoteComplete`). -/
def finalizeCurrentNote (now : ℚ) (st : DetectorState) :
    DetectorState × List DetectedNote :=
  let emitted : List DetectedNote :=
    match st.currentNoteData, st.currentNoteStartTime with
    | some d, some t0 =>
      let durationMs := now - t0
      if MIN_NOTE_DURATION_MS ≤ durationMs then
        [{ noteName := d.noteName, note := d.note, octave := d.octave,
           frequency := d.frequency, cents := d.cents,
           durationMs := jsRound durationMs, startTime := t0, endTime := now }]
      else []
    | _, _ => []
  ({ st with currentNoteStartTime := none, currentNoteData := none }, emitted)

/-- The updated consecutive-match counter of `process` step 4: increment
when the mapped note name equals `lastDetectedNote`, else restart at 1. -/
def nextCount (st : DetectorState) (noteName : String) : ℕ :=
  if some noteName = st.lastDetectedNote then st.consecutiveCount + 1 else 1

/-- `process` of `pitchDetection.ts`, one frame.  The conversion
`frequencyToNote` is passed in as the pure function `toNote` (its
transcendental numeric content is verified separately); `now` is the
value `performance.now()` returns during this call.  Result: (new state,
notes delivered to `onNoteComplete`, the returned `PitchResult | null`). -/
def process (toNote : ℚ → PitchResult) (now : ℚ) (st : DetectorState)
    (fr : Frame) : DetectorState × List DetectedNote × Option PitchResult :=
  -- Step 1: silence filtering
  if fr.rms < RMS_THRESHOLD then
    let fin := if st.currentNoteData.isSome then finalizeCurrentNote now st else (st, [])
    ({ fin.1 with lastDetectedNote := none, consecutiveCount := 0 }, fin.2, none)
  else
    -- Step 2: pitch detection
    match fr.pitch with
    | none =>
      let fin := if st.currentNoteData.isSome then finalizeCurrentNote now st else (st, [])
      ({ fin.1 with lastDetectedNote := none, consecutiveCount := 0 }, fin.2, none)
    | some frequency =>
      if frequency ≤ 0 then
        let fin := if st.currentNoteData.isSome then finalizeCurrentNote now st else (st, [])
        ({ fin.1 with lastDetectedNote := none, consecutiveCount := 0 }, fin.2, none)
      else if frequency < 80 ∨ 1100 < frequency then
        -- out-of-range frequency: ignored, state untouched
        (st, [], none)
      else
        -- Step 3: convert to note; Step 4: stability check
        let result := toNote frequency
        let cc := nextCount st result.noteName
        let st2 := { st with lastDetectedNote := some result.noteName,
                             consecutiveCount := cc }
        if STABILITY_THRESHOLD ≤ cc then
          if some result.noteName ≠ st2.lastStableNote then
            let fin := if st2.currentNoteData.isSome then finalizeCurrentNote now st2 else (st2, [])
            ({ fin.1 with lastStableNote := some result.noteName,
                          currentNoteStartTime := some now,
                          currentNoteData := some result }, fin.2, some result)
          else (st2, [], none)
        else (st2, [], none)

/-- `flush` of `pitchDetection.ts`: force finalization of the current
note. -/
def flush (now : ℚ) (st : DetectorState) : DetectorState × List DetectedNote :=
  if st.currentNoteData.isSome then finalizeCurrentNote now st else (st, [])

/-- `reset` of `pitchDetection.ts`: `flush`, then clear all state. -/
def reset (now : ℚ) (st : DetectorState) : DetectorState × List DetectedNote :=
  let fl := flush now st
  ({ lastDetectedNote := none, consecutiveCount := 0, lastStableNote := none,
     currentNoteStartTime := none, currentNoteData := none }, fl.2)

/-- Feeding a timed frame sequence to `process`, collecting every note
delivered to the `onNoteComplete` callback along the way. -/
def runFrames (toNote : ℚ → PitchResult) (st : DetectorState) :
    List (ℚ × Frame) → DetectorState × List DetectedNote
  | [] => (st, [])
  | (now, fr) :: rest =>
    let step := process toNote now st fr
    let next := runFrames toNote step.1 rest
    (next.1, step.2.1 ++ next.2)

end PitchDetection

namespace PitchDetection

/-! ## `frequencyToNote` (the Note Mapper)

`frequencyToNote` computes `12 * Math.log2(frequency / 440) + 69`, a
transcendental function, so this part of the code is embedded over `ℝ`
(necessarily non-executable), one definition per line of the source
body.  JS `Math.round` is `round` (half toward +∞ — the same rule), the
double-`%` trick uses the truncated remainder `Int.tmod`, and
`Math.floor(roundedMidi / 12)` is floored integer division `Int.fdiv`. -/

/-- `A4_FREQUENCY`: standard tuning reference. -/
def A4_FREQUENCY : ℝ := 440

/-- `A4_MIDI_NUMBER`. -/
def A4_MIDI_NUMBER : ℝ := 69

/-- `const midiNumber = 12 * Math.log2(frequency / A4_FREQUENCY) + A4_MIDI_NUMBER`. -/
noncomputable def midiNumber (frequency : ℝ) : ℝ :=
  12 * Real.logb 2 (frequency / A4_FREQUENCY) + A4_MIDI_NUMBER

/-- `const roundedMidi = Math.round(midiNumber)`. -/
noncomputable def roundedMidi (frequency : ℝ) : ℤ :=
  round (midiNumber frequency)

/-- `const cents = Math.round((midiNumber - roundedMidi) * 100)`. -/
noncomputable def centsOf (frequency : ℝ) : ℤ :=
  round ((midiNumber frequency - roundedMidi frequency) * 100)

/-- `const noteIndex = ((roundedMidi % 12) + 12) % 12` (JS `%` is the
truncated remainder). -/
noncomputable def noteIndex (frequency : ℝ) : ℤ :=
  ((roundedMidi frequency).tmod 12 + 12).tmod 12

/-- `const octave = Math.floor(roundedMidi / 12) - 1`. -/
noncomputable def octaveOf (frequency : ℝ) : ℤ :=
  (roundedMidi frequency).fdiv 12 - 1

/-- `const note = NOTE_NAMES[noteIndex]`. -/
noncomputable def noteOf (frequency : ℝ) : String :=
  NOTE_NAMES.getD (noteIndex frequency).toNat ""

/-! ### The Note Mapper as the spec states it (§4.3)

A second set of definitions, written from the spec's words alone, to be
compared with the source embedding above: "midiNumber =
12·log2(freq/reference) + referenceMidiNumber; round to nearest integer
for the note identity; centsOffset = round((midiNumber − roundedMidi) ×
100); pitchClass = roundedMidi mod 12 (using a non-negative modulo for
midi numbers below the reference); octave = floor(roundedMidi / 12) −
1", with reference 440 Hz and reference midi number 69. -/

/-- Spec §4.3: `midiNumber = 12·log2(freq/reference) + referenceMidiNumber`. -/
noncomputable def specMidiNumber (freq reference : ℝ) (referenceMidiNumber : ℤ) : ℝ :=
  12 * Real.logb 2 (freq / reference) + referenceMidiNumber

/-- Spec §4.3: round to the nearest integer for the note identity. -/
noncomputable def specRoundedMidi (freq reference : ℝ) (referenceMidiNumber : ℤ) : ℤ :=
  round (specMidiNumber freq reference referenceMidiNumber)

/-- Spec §4.3: `centsOffset = round((midiNumber − roundedMidi) × 100)`. -/
noncomputable def specCentsOffset (freq reference : ℝ) (referenceMidiNumber : ℤ) : ℤ :=
  round ((specMidiNumber freq reference referenceMidiNumber -
    specRoundedMidi freq reference referenceMidiNumber) * 100)

/-- Spec §4.3: `pitchClass = roundedMidi mod 12`, a non-negative modulo
(`Int`'s `%` is `Int.emod`, whose result for a positive modulus is always
in `[0, 12)`). -/
noncomputable def specPitchClass (freq reference : ℝ) (referenceMidiNumber : ℤ) : ℤ :=
  (specRoundedMidi freq reference referenceMidiNumber) % 12

/-- Spec §4.3: `octave = floor(roundedMidi / 12) − 1`. -/
noncomputable def specOctave (freq reference : ℝ) (referenceMidiNumber : ℤ) : ℤ :=
  (specRoundedMidi freq reference referenceMidiNumber).fdiv 12 - 1

end PitchDetection

/-- The JS double-remainder idiom `((r % 12) + 12) % 12` (truncated
remainder) computes the non-negative modulo `r.emod 12`. -/
theorem tmod_add_twelve_tmod (r : ℤ) : (r.tmod 12 + 12).tmod 12 = r % 12 := by
  match r with
  | Int.ofNat m =>
    have h1 : (Int.ofNat m).tmod 12 = Int.ofNat (m % 12) := rfl
    rw [h1]
    simp only [Int.ofNat_eq_natCast] at h1 ⊢
    rw [Int.tmod_eq_emod (by omega) (by omega)]
    omega
  | Int.negSucc m =>
    have h1 : (Int.negSucc m).tmod 12 = -Int.ofNat ((m + 1) % 12) := rfl
    rw [h1]
    simp only [Int.ofNat_eq_natCast, Int.negSucc_eq] at h1 ⊢
    rw [Int.tmod_eq_emod (by omega) (by omega)]
    omega

namespace PitchDetection

/-- C6: for every positive frequency, `frequencyToNote` computes
`midiNumber = 12·log2(freq/440) + 69`, rounds it to the nearest integer
(half toward +∞) for the note identity, sets
`centsOffset = round((midiNumber − roundedMidi) × 100)`, picks the note
name by `pitchClass = roundedMidi mod 12` with a non-negative modulo,
and sets `octave = floor(roundedMidi / 12) − 1` — exactly the spec §4.3
formulas (same rounding rule). -/
theorem frequencyToNote_matches_spec (frequency : ℝ) (h : 0 < frequency) :
    midiNumber frequency = specMidiNumber frequency 440 69 ∧
    roundedMidi frequency = specRoundedMidi frequency 440 69 ∧
    centsOf frequency = specCentsOffset frequency 440 69 ∧
    noteIndex frequency = specPitchClass frequency 440 69 ∧
    octaveOf frequency = specOctave frequency 440 69 ∧
    noteOf frequency = NOTE_NAMES.getD (specPitchClass frequency 440 69).toNat "" := by
  have hm : midiNumber frequency = specMidiNumber frequency 440 69 := by
    rw [midiNumber, specMidiNumber, A4_FREQUENCY, A4_MIDI_NUMBER]
    norm_num
  have hr : roundedMidi frequency = specRoundedMidi frequency 440 69 := by
    rw [roundedMidi, specRoundedMidi, hm]
  refine ⟨hm, hr, ?_, ?_, ?_, ?_⟩
  · rw [centsOf, specCentsOffset, hm, hr]
  · rw [noteIndex, specPitchClass, hr, tmod_add_twelve_tmod]
  · rw [octaveOf, specOctave, hr]
  · rw [noteOf, noteIndex, specPitchClass, hr, tmod_add_twelve_tmod]

/-- C6 witness: the match instantiated at the concrete frequency 440 Hz. -/
theorem frequencyToNote_matches_spec_witness :
    midiNumber 440 = specMidiNumber 440 440 69 ∧
    roundedMidi 440 = specRoundedMidi 440 440 69 ∧
    centsOf 440 = specCentsOffset 440 440 69 ∧
    noteIndex 440 = specPitchClass 440 440 69 ∧
    octaveOf 440 = specOctave 440 440 69 ∧
    noteOf 440 = NOTE_NAMES.getD (specPitchClass 440 440 69).toNat "" :=
  frequencyToNote_matches_spec 440 (by norm_num)

end PitchDetection

namespace PitchDetection

/-- C1: whenever a gated frame's note reaches the stability threshold and
differs from the currently-open stable note (including when none is
open), `process` finalizes any open note (delivering exactly what a
`flush` at `now` would), opens a new stable note with start timestamp
`now`, and returns the note-started event for that frame. -/
theorem process_opens_new_stable_note (toNote : ℚ → PitchResult) (now : ℚ)
    (st : DetectorState) (fr : Frame) (f : ℚ)
    (hrms : ¬ fr.rms < RMS_THRESHOLD) (hp : fr.pitch = some f)
    (hpos : ¬ f ≤ 0) (hrange : ¬ (f < 80 ∨ 1100 < f))
    (hstable : STABILITY_THRESHOLD ≤ nextCount st (toNote f).noteName)
    (hnew : some (toNote f).noteName ≠ st.lastStableNote) :
    process toNote now st fr =
      ({ lastDetectedNote := some (toNote f).noteName,
         consecutiveCount := nextCount st (toNote f).noteName,
         lastStableNote := some (toNote f).noteName,
         currentNoteStartTime := some now,
         currentNoteData := some (toNote f) },
       (flush now st).2, some (toNote f)) := by
  rw [process, hp]
  dsimp only
  rw [if_neg hrms, if_neg hpos, if_neg hrange, if_pos hstable]
  rw [if_pos (by simpa using hnew)]
  rcases hd : st.currentNoteData with _ | d
  · simp [flush, hd, finalizeCurrentNote]
  · simp [flush, hd, finalizeCurrentNote]

end PitchDetection

namespace PitchDetection

/-- A concrete note mapper for witnesses: everything below 500 Hz maps
to "A4", the rest to "B4". -/
def witnessMapper : ℚ → PitchResult :=
  fun f => if f < 500 then ⟨f, "A", 4, "A4", 0⟩ else ⟨f, "B", 4, "B4", 0⟩

/-- A detector state two matching frames into a note, with no open
stable note. -/
def witnessState : DetectorState :=
  { lastDetectedNote := some "A4", consecutiveCount := 2, lastStableNote := none,
    currentNoteStartTime := none, currentNoteData := none }

/-- C1 witness: a loud 440 Hz frame whose note reaches the stability
threshold while no stable note is open. -/
theorem process_opens_new_stable_note_witness :
    process witnessMapper 0 witnessState ⟨1, some 440⟩ =
      ({ lastDetectedNote := some (witnessMapper 440).noteName,
         consecutiveCount := nextCount witnessState (witnessMapper 440).noteName,
         lastStableNote := some (witnessMapper 440).noteName,
         currentNoteStartTime := some 0,
         currentNoteData := some (witnessMapper 440) },
       (flush 0 witnessState).2, some (witnessMapper 440)) :=
  process_opens_new_stable_note witnessMapper 0 witnessState ⟨1, some 440⟩ 440
    (by decide) rfl (by decide) (by decide) (by decide) (by decide)

/-- C9: a gated frame whose estimated frequency is positive but outside
the plausible 80–1100 Hz range is simply ignored — `process` returns
`none` and the state is completely unchanged (no finalization, no
counter reset) — whereas a frame with no pitch estimate behaves exactly
like a silent frame (finalize any open note and reset the stability
tracking). -/
theorem out_of_range_frequency_ignored (toNote : ℚ → PitchResult) (now : ℚ)
    (st : DetectorState) (fr frNoPitch frSilent : Frame) (f : ℚ)
    (hrms : ¬ fr.rms < RMS_THRESHOLD) (hp : fr.pitch = some f)
    (hpos : 0 < f) (hout : f < 80 ∨ 1100 < f)
    (hrms2 : ¬ frNoPitch.rms < RMS_THRESHOLD) (hp2 : frNoPitch.pitch = none)
    (hrmsS : frSilent.rms < RMS_THRESHOLD) :
    process toNote now st fr = (st, [], none) ∧
    process toNote now st frNoPitch = process toNote now st frSilent := by
  constructor
  · rw [process, hp]
    dsimp only
    rw [if_neg hrms, if_neg (by exact fun h => absurd hpos (by simpa using h)), if_pos hout]
  · rw [process, process, hp2]
    dsimp only
    rw [if_neg hrms2, if_pos hrmsS]

/-- C9 witness: instantiated with a 2000 Hz frame (out of range), a
pitchless frame and a silent frame, on the two-frames-in state. -/
theorem out_of_range_frequency_ignored_witness :
    process witnessMapper 0 witnessState ⟨1, some 2000⟩ = (witnessState, [], none) ∧
    process witnessMapper 0 witnessState ⟨1, none⟩ =
      process witnessMapper 0 witnessState ⟨0, some 440⟩ :=
  out_of_range_frequency_ignored witnessMapper 0 witnessState
    ⟨1, some 2000⟩ ⟨1, none⟩ ⟨0, some 440⟩ 2000
    (by decide) rfl (by decide) (by decide) (by decide) rfl (by decide)

end PitchDetection

namespace PitchDetection

/-- Every note `finalizeCurrentNote` delivers lasted at least the
minimum duration. -/
theorem finalizeCurrentNote_min_duration (now : ℚ) (st : DetectorState)
    (n : DetectedNote) (hn : n ∈ (finalizeCurrentNote now st).2) :
    MIN_NOTE_DURATION_MS ≤ n.endTime - n.startTime := by
  rcases st with ⟨ld, cc, ls, start, data⟩
  rcases data with _ | d
  · simp [finalizeCurrentNote] at hn
  · rcases start with _ | t0
    · simp [finalizeCurrentNote] at hn
    · by_cases h : MIN_NOTE_DURATION_MS ≤ now - t0
      · simp only [finalizeCurrentNote, if_pos h, List.mem_singleton] at hn
        subst hn
        simpa using h
      · simp [finalizeCurrentNote, h] at hn

/-- Every note `process` delivers lasted at least the minimum duration. -/
theorem process_min_duration (toNote : ℚ → PitchResult) (now : ℚ)
    (st : DetectorState) (fr : Frame) (n : DetectedNote)
    (hn : n ∈ (process toNote now st fr).2.1) :
    MIN_NOTE_DURATION_MS ≤ n.endTime - n.startTime := by
  rw [process] at hn
  dsimp only at hn
  repeat' split at hn
  all_goals first
    | cases hn
    | exact finalizeCurrentNote_min_duration _ _ n hn

end PitchDetection

namespace PitchDetection

/-- C7: on any frame, on any frame sequence, and on explicit `flush` and
`reset` calls, the detector never delivers a `DetectedNote` whose
duration `now − startTimestamp` is below the 80 ms minimum; too-short
notes are silently discarded. -/
theorem detector_never_reports_short_notes (toNote : ℚ → PitchResult) (now : ℚ)
    (st : DetectorState) (fr : Frame) (frames : List (ℚ × Frame)) :
    (∀ n ∈ (process toNote now st fr).2.1, MIN_NOTE_DURATION_MS ≤ n.endTime - n.startTime) ∧
    (∀ n ∈ (flush now st).2, MIN_NOTE_DURATION_MS ≤ n.endTime - n.startTime) ∧
    (∀ n ∈ (reset now st).2, MIN_NOTE_DURATION_MS ≤ n.endTime - n.startTime) ∧
    (∀ n ∈ (runFrames toNote st frames).2, MIN_NOTE_DURATION_MS ≤ n.endTime - n.startTime) := by
  have hflush : ∀ (st' : DetectorState) (n : DetectedNote), n ∈ (flush now st').2 →
      MIN_NOTE_DURATION_MS ≤ n.endTime - n.startTime := by
    intro st' n hn
    rw [flush] at hn
    split at hn
    · exact finalizeCurrentNote_min_duration now st' n hn
    · cases hn
  have hrun : ∀ (fs : List (ℚ × Frame)) (st' : DetectorState) (n : DetectedNote),
      n ∈ (runFrames toNote st' fs).2 → MIN_NOTE_DURATION_MS ≤ n.endTime - n.startTime := by
    intro fs
    induction fs with
    | nil => intro st' n hn; cases hn
    | cons p rest ih =>
      rcases p with ⟨now', fr'⟩
      intro st' n hn
      rw [runFrames] at hn
      dsimp only at hn
      rcases List.mem_append.1 hn with hn | hn
      · exact process_min_duration toNote now' st' fr' n hn
      · exact ih _ n hn
  exact ⟨fun n hn => process_min_duration toNote now st fr n hn,
    hflush st,
    fun n hn => hflush st n hn,
    hrun frames st⟩

end PitchDetection

namespace PitchDetection

/-- A frame that passes every gate of `process` (loud enough, a positive
in-range pitch estimate) and whose estimate maps to the note name
`noteName`. -/
def gatedWithName (toNote : ℚ → PitchResult) (fr : Frame) (noteName : String) : Prop :=
  ¬ fr.rms < RMS_THRESHOLD ∧
    ∃ f, fr.pitch = some f ∧ ¬ f ≤ 0 ∧ ¬ (f < 80 ∨ 1100 < f) ∧
      (toNote f).noteName = noteName

/-- A gated frame whose updated consecutive count stays below the
stability threshold only updates the stability-tracking fields: nothing
is finalized, started or returned. -/
theorem process_gated_below_threshold (toNote : ℚ → PitchResult) (now : ℚ)
    (st : DetectorState) (fr : Frame) (noteName : String)
    (hg : gatedWithName toNote fr noteName)
    (hcc : nextCount st noteName < STABILITY_THRESHOLD) :
    process toNote now st fr =
      ({ st with lastDetectedNote := some noteName,
                 consecutiveCount := nextCount st noteName }, [], none) := by
  obtain ⟨hrms, f, hp, h0, hrange, hname⟩ := hg
  rw [process, hp]
  dsimp only
  rw [hname, if_neg hrms, if_neg h0, if_neg hrange, if_neg (not_le.2 hcc)]

end PitchDetection

namespace PitchDetection

/-- Debounce invariant: starting from a state with no tracked note, no
open stable note, and a last-detected note different from the first
upcoming run, a sequence of gated frames whose note names form runs each
shorter than the stability threshold (adjacent runs differing) never
finalizes a note and never starts tracking one. -/
theorem debounce_aux (toNote : ℚ → PitchResult) (blocks : List (String × ℕ)) :
    ∀ (st : DetectorState) (frames : List (ℚ × Frame)),
      st.currentNoteData = none →
      (∀ bl, blocks.head? = some bl → st.lastDetectedNote ≠ some bl.1) →
      (∀ bl ∈ blocks, 1 ≤ bl.2 ∧ bl.2 < STABILITY_THRESHOLD) →
      blocks.Chain' (fun x y => x.1 ≠ y.1) →
      List.Forall₂ (fun (p : ℚ × Frame) nm => gatedWithName toNote p.2 nm) frames
        (blocks.flatMap fun bl => List.replicate bl.2 bl.1) →
      (runFrames toNote st frames).2 = [] ∧
      (runFrames toNote st frames).1.currentNoteData = none := by
  induction blocks with
  | nil =>
    intro st frames hdata hhead hlen hchain hframes
    rw [List.flatMap_nil, List.forall₂_nil_right_iff] at hframes
    subst hframes
    exact ⟨rfl, hdata⟩
  | cons bl rest ih =>
    rcases bl with ⟨nm, k⟩
    intro st frames hdata hhead hlen hchain hframes
    obtain ⟨hk1, hk3⟩ := hlen _ (List.mem_cons_self _ _)
    rw [STABILITY_THRESHOLD] at hk3
    rw [List.flatMap_cons] at hframes
    obtain ⟨hrel, hchain'⟩ := List.chain'_cons'.1 hchain
    have hlen' : ∀ b ∈ rest, 1 ≤ b.2 ∧ b.2 < STABILITY_THRESHOLD :=
      fun b hb => hlen b (List.mem_cons_of_mem _ hb)
    have hhead1 : st.lastDetectedNote ≠ some nm := hhead _ rfl
    -- the first frame of the run
    interval_cases k
    · -- run of length 1
      rw [show List.replicate 1 nm = [nm] from rfl, List.cons_append, List.nil_append] at hframes
      obtain ⟨p, frames', hg, hframes', rfl⟩ := List.forall₂_cons_right_iff.1 hframes
      rcases p with ⟨now', fr'⟩
      have hcnt : nextCount st nm = 1 := by
        rw [nextCount, if_neg (fun h => hhead1 h.symm)]
      have hstep := process_gated_below_threshold toNote now' st fr' nm hg
        (by rw [hcnt, STABILITY_THRESHOLD]; omega)
      rw [runFrames, hstep]
      dsimp only
      have hrest := ih
        { st with lastDetectedNote := some nm, consecutiveCount := nextCount st nm }
        frames' hdata
        (fun b hb hEq => hrel b hb (Option.some.inj hEq))
        hlen' hchain' hframes'
      exact ⟨by rw [List.nil_append]; exact hrest.1, hrest.2⟩
    · -- run of length 2
      rw [show List.replicate 2 nm = [nm, nm] from rfl, List.cons_append, List.cons_append,
        List.nil_append] at hframes
      obtain ⟨p1, frames1, hg1, hframes1, rfl⟩ := List.forall₂_cons_right_iff.1 hframes
      obtain ⟨p2, frames2, hg2, hframes2, rfl⟩ := List.forall₂_cons_right_iff.1 hframes1
      rcases p1 with ⟨now1, fr1⟩
      rcases p2 with ⟨now2, fr2⟩
      have hcnt1 : nextCount st nm = 1 := by
        rw [nextCount, if_neg (fun h => hhead1 h.symm)]
      have hstep1 := process_gated_below_threshold toNote now1 st fr1 nm hg1
        (by rw [hcnt1, STABILITY_THRESHOLD]; omega)
      have hcnt2 : nextCount { st with lastDetectedNote := some nm, consecutiveCount := nextCount st nm } nm = 2 := by
        rw [nextCount]
        simp [hcnt1]
      have hstep2 := process_gated_below_threshold toNote now2
        { st with lastDetectedNote := some nm, consecutiveCount := nextCount st nm } fr2 nm hg2
        (by rw [hcnt2, STABILITY_THRESHOLD]; omega)
      rw [runFrames, hstep1]
      dsimp only
      rw [runFrames, hstep2]
      dsimp only
      have hrest := ih
        { st with lastDetectedNote := some nm,
                  consecutiveCount := nextCount
                    { st with lastDetectedNote := some nm,
                              consecutiveCount := nextCount st nm } nm }
        frames2 hdata
        (fun b hb hEq => hrel b hb (Option.some.inj hEq))
        hlen' hchain' hframes2
      exact ⟨by rw [List.nil_append, List.nil_append]; exact hrest.1, hrest.2⟩

end PitchDetection

namespace PitchDetection

/-- C8: a frame sequence alternating between two different note names in
runs each shorter than the stability threshold (3) never finalizes a
`DetectedNote`: nothing is ever delivered to the note-complete callback,
and no note is ever open. -/
theorem alternating_below_threshold_never_finalizes (toNote : ℚ → PitchResult)
    (a b : String) (hab : a ≠ b) (blocks : List (String × ℕ))
    (hnames : ∀ bl ∈ blocks, bl.1 = a ∨ bl.1 = b)
    (hruns : ∀ bl ∈ blocks, 1 ≤ bl.2 ∧ bl.2 < STABILITY_THRESHOLD)
    (hchain : blocks.Chain' fun x y => x.1 ≠ y.1)
    (frames : List (ℚ × Frame))
    (hframes : List.Forall₂ (fun (p : ℚ × Frame) nm => gatedWithName toNote p.2 nm) frames
      (blocks.flatMap fun bl => List.replicate bl.2 bl.1)) :
    (runFrames toNote initialState frames).2 = [] ∧
    (runFrames toNote initialState frames).1.currentNoteData = none :=
  debounce_aux toNote blocks initialState frames rfl
    (fun _ _ hEq => Option.noConfusion hEq) hruns hchain hframes

/-- The alternation A4 A4 B4 B4 A4 as (note name, run length) blocks. -/
def c8Blocks : List (String × ℕ) := [("A4", 2), ("B4", 2), ("A4", 1)]

/-- Five loud frames at 440, 440, 600, 600, 440 Hz. -/
def c8Frames : List (ℚ × Frame) :=
  [(0, ⟨1, some 440⟩), (1, ⟨1, some 440⟩), (2, ⟨1, some 600⟩),
   (3, ⟨1, some 600⟩), (4, ⟨1, some 440⟩)]

/-- C8 witness: the concrete alternation A4 A4 B4 B4 A4 (runs of 2, 2
and 1) finalizes nothing. -/
theorem alternating_below_threshold_never_finalizes_witness :
    (runFrames witnessMapper initialState c8Frames).2 = [] ∧
    (runFrames witnessMapper initialState c8Frames).1.currentNoteData = none :=
  alternating_below_threshold_never_finalizes witnessMapper "A4" "B4" (by decide)
    c8Blocks (by decide) (by decide)
    (by
      rw [c8Blocks]
      exact List.chain'_cons.2 ⟨by decide, List.chain'_cons.2 ⟨by decide, List.chain'_singleton _⟩⟩)
    c8Frames
    (by
      show List.Forall₂ _ c8Frames ["A4", "A4", "B4", "B4", "A4"]
      rw [c8Frames]
      refine .cons ⟨by decide, 440, rfl, by decide, by decide, by decide⟩ ?_
      refine .cons ⟨by decide, 440, rfl, by decide, by decide, by decide⟩ ?_
      refine .cons ⟨by decide, 600, rfl, by decide, by decide, by decide⟩ ?_
      refine .cons ⟨by decide, 600, rfl, by decide, by decide, by decide⟩ ?_
      exact .cons ⟨by decide, 440, rfl, by decide, by decide, by decide⟩ .nil)

end PitchDetection

namespace KeyDetection

/-! ## Key detection (`useAudioCapture.ts`, key-detection utility)

Pitch classes are the strings of `PITCH_CLASSES`; durations are
milliseconds as exact rationals.  A JS `Map<PitchClass, number>` built
by `set(pc, (get(pc) || 0) + duration)` is an insertion-ordered
association list (`addWeight` updates an existing key in place and
appends a new one, exactly as `Map.set` does).  `Array.prototype.sort`
with comparator `(a, b) => b.score - a.score` is a stable descending
sort; any stable sort with this comparator yields the same list, and
`sortByScoreDesc` below is one. -/

/-- `PITCH_CLASSES`: all pitch classes in sharp notation (C = 0; one
array in the source, split into an append of two literals here). -/
def PITCH_CLASSES : List String :=
  ["C", "C#", "D", "D#", "E"] ++ ["F", "F#", "G", "G#", "A", "A#", "B"]

/-- `Mode`: the keys of `SCALE_TEMPLATES`. -/
inductive Mode where
  | major
  | minor
  | harmonicMinor
  | dorian
  | mixolydian
deriving DecidableEq, Fintype

/-- `SCALE_TEMPLATES`: scale templates as semitone intervals from the
root. -/
def SCALE_TEMPLATES : Mode → List ℤ
  | .major => [0, 2, 4, 5, 7, 9, 11]
  | .minor => [0, 2, 3, 5, 7, 8, 10]
  | .harmonicMinor => [0, 2, 3, 5, 7, 8, 11]
  | .dorian => [0, 2, 3, 5, 7, 9, 10]
  | .mixolydian => [0, 2, 4, 5, 7, 9, 10]

/-- `KeyDetectionResult` (scores and confidences are JS numbers, here ℚ). -/
structure KeyDetectionResult where
  key : String
  mode : Mode
  confidence : ℚ
  score : ℚ
  scaleNotes : List String
deriving DecidableEq

/-- `KeyAnalysisResult`. -/
structure KeyAnalysisResult where
  primary : KeyDetectionResult
  alternative : Option KeyDetectionResult
  isAmbiguous : Bool
deriving DecidableEq

/-- `FLAT_TO_SHARP`: the mapping of flat notes to sharp equivalents
(JS object lookup; `none` for a key that is absent). -/
def FLAT_TO_SHARP (s : String) : Option String :=
  if s = "Db" then some "C#"
  else if s = "Eb" then some "D#"
  else if s = "Fb" then some "E"
  else if s = "Gb" then some "F#"
  else if s = "Ab" then some "G#"
  else if s = "Bb" then some "A#"
  else if s = "Cb" then some "B"
  else none

/-- A character matched by the regex class `[A-Ga-g]`. -/
def isNoteLetterChar (c : Char) : Bool :=
  ('A' ≤ c && c ≤ 'G') || ('a' ≤ c && c ≤ 'g')

/-- `note.match(/^([A-Ga-g][#b]?)/)`: the matched group, as its list of
characters (`none` when the regex does not match). -/
def matchNoteStart : List Char → Option (List Char)
  | [] => none
  | c :: rest =>
    if isNoteLetterChar c then
      match rest with
      | c2 :: _ => if c2 = '#' || c2 = 'b' then some [c, c2] else some [c]
      | [] => some [c]
    else none

/-- `pitchClass.charAt(0).toUpperCase() + pitchClass.slice(1)`. -/
def capitalizeHead : List Char → List Char
  | [] => []
  | c :: rest => c.toUpper :: rest

/-- `normalizeToPitchClass` of `useAudioCapture.ts`: match the leading
note-letter (with optional accidental), capitalize the letter, convert a
flat spelling through `FLAT_TO_SHARP`, and accept the result only if it
is one of the twelve sharp-notation pitch classes. -/
def normalizeToPitchClass (note : String) : Option String :=
  match matchNoteStart note.data with
  | none => none
  | some m =>
    let pitchClass := String.mk (capitalizeHead m)
    let pitchClass :=
      if pitchClass.data.contains 'b' then
        match FLAT_TO_SHARP pitchClass with
        | some sharp => sharp
        | none => pitchClass
      else pitchClass
    if PITCH_CLASSES.contains pitchClass then some pitchClass else none

/-- `getPitchIndex`: `PITCH_CLASSES.indexOf(pitchClass)` (−1 when
absent, as in JS). -/
def getPitchIndex (pitchClass : String) : ℤ :=
  match PITCH_CLASSES.indexOf? pitchClass with
  | some i => i
  | none => -1

/-- `getScaleNotes`: the ordered scale for a root and mode (empty for an
unknown root).  `(rootIndex + interval) % 12` is on non-negative
operands, where JS `%` agrees with `Int.emod`. -/
def getScaleNotes (root : String) (mode : Mode) : List String :=
  let rootIndex := getPitchIndex root
  if rootIndex = -1 then []
  else (SCALE_TEMPLATES mode).map fun interval =>
    PITCH_CLASSES.getD ((rootIndex + interval) % 12).toNat ""

/-- `getScaleNotesSet`: the same notes collected into a set; membership
is all it is used for, so it is kept as the underlying list (the twelve
templates produce no duplicates). -/
def getScaleNotesSet (root : String) (mode : Mode) : List String :=
  (SCALE_TEMPLATES mode).map fun interval =>
    PITCH_CLASSES.getD ((getPitchIndex root + interval) % 12).toNat ""

/-- `getRelativeMinor`: 3 semitones down (−3 = +9 mod 12). -/
def getRelativeMinor (majorRoot : String) : String :=
  PITCH_CLASSES.getD ((getPitchIndex majorRoot + 9) % 12).toNat ""

/-- `getRelativeMajor`: 3 semitones up. -/
def getRelativeMajor (minorRoot : String) : String :=
  PITCH_CLASSES.getD ((getPitchIndex minorRoot + 3) % 12).toNat ""

/-- A (key, mode) pair together with its score, as pushed into the
`scores` array of the analysis functions. -/
structure ScoredKey where
  key : String
  mode : Mode
  score : ℚ
deriving DecidableEq

/-- `areRelativeKeys`: different modes, and the minor tonic is three
semitones below the major tonic (the `else` branch treats any non-major
first mode the way the source does). -/
def areRelativeKeys (key1 key2 : ScoredKey) : Bool :=
  if key1.mode = key2.mode then false
  else if key1.mode = Mode.major then getRelativeMinor key1.key = key2.key
  else getRelativeMajor key1.key = key2.key

/-- `calculateScaleFit`: the duration-weighted fraction of notes inside
the scale. -/
def calculateScaleFit (root : String) (mode : Mode)
    (noteWeights : List (String × ℚ)) (totalDuration : ℚ) : ℚ :=
  if totalDuration = 0 then 0
  else
    let scaleNotes := getScaleNotesSet root mode
    let inScaleDuration := noteWeights.foldl
      (fun acc p => if scaleNotes.contains p.1 then acc + p.2 else acc) 0
    inScaleDuration / totalDuration

end KeyDetection

namespace KeyDetection

/-- The fifth degree used by the scoring loops: `tonic + 7` semitones. -/
def fifthOf (root : String) : String :=
  PITCH_CLASSES.getD ((getPitchIndex root + 7) % 12).toNat ""

/-- The third degree: major modes (major, mixolydian) use the major
third (4 semitones), the others the minor third (3 semitones). -/
def thirdOf (root : String) (mode : Mode) : String :=
  PITCH_CLASSES.getD
    ((getPitchIndex root + (if mode = Mode.major ∨ mode = Mode.mixolydian then 4 else 3)) % 12).toNat ""

/-- The leading tone: the 7th degree of the scale template. -/
def leadingToneOf (root : String) (mode : Mode) : String :=
  PITCH_CLASSES.getD ((getPitchIndex root + (SCALE_TEMPLATES mode).getD 6 0) % 12).toNat ""

/-- The body of the scoring loop of `scoreKeyWithDuration`: accumulates
(`score`, `inScaleDuration`).  The bonuses for tonic / fifth / third /
leading tone are an `else if` chain inside the in-scale branch, exactly
as in the source. -/
def scoreStep (root fifth third leadingTone : String) (scaleNotes : List String)
    (acc : ℚ × ℚ) (p : String × ℚ) : ℚ × ℚ :=
  let weight := p.2 / 1000
  if scaleNotes.contains p.1 then
    let base := acc.1 + weight * 2
    ( (if p.1 = root then base + weight * 5
       else if p.1 = fifth then base + weight * 3
       else if p.1 = third then base + weight * 2
       else if p.1 = leadingTone then base + weight * 1
       else base),
      acc.2 + p.2 )
  else (acc.1 - weight * (3 / 2), acc.2)

/-- `scoreKeyWithDuration`: duration-weighted scoring of one (root,
mode) hypothesis. -/
def scoreKeyWithDuration (root : String) (mode : Mode)
    (noteWeights : List (String × ℚ)) (totalDuration : ℚ)
    (firstNote lastNote : Option String) : ℚ :=
  let scaleNotes := getScaleNotesSet root mode
  let fifth := fifthOf root
  let third := thirdOf root mode
  let leadingTone := leadingToneOf root mode
  let acc := noteWeights.foldl (scoreStep root fifth third leadingTone scaleNotes) (0, 0)
  let score := acc.1 + (if firstNote = some root then 2 else 0) +
    (if lastNote = some root then 3 else 0)
  let fit := if totalDuration > 0 then acc.2 / totalDuration else 0
  let score := score * (1 / 2 + fit * (1 / 2))
  let totalSeconds := totalDuration / 1000
  if totalSeconds > 0 then score / totalSeconds else 0

/-- `NoteWithDuration`. -/
structure NoteWithDuration where
  noteName : String
  durationMs : ℚ
deriving DecidableEq

/-- `Map.set(pc, (Map.get(pc) || 0) + duration)` on an insertion-ordered
map: add to an existing key in place, or append a new one. -/
def addWeight : List (String × ℚ) → String → ℚ → List (String × ℚ)
  | [], key, v => [(key, v)]
  | (k0, v0) :: rest, key, v =>
    if k0 = key then (k0, v0 + v) :: rest else (k0, v0) :: addWeight rest key v

/-- The `noteWeights` map built by the aggregation loop of
`analyzeKeyWithDuration` (the loop's three accumulators are split into
three folds over the same list). -/
def noteWeightsOf (notes : List NoteWithDuration) : List (String × ℚ) :=
  notes.foldl
    (fun m note =>
      match normalizeToPitchClass note.noteName with
      | some pitchClass => addWeight m pitchClass note.durationMs
      | none => m) []

/-- The `normalizedNotes` array of the aggregation loop. -/
def normalizedNotesOf (notes : List NoteWithDuration) : List (String × ℚ) :=
  notes.foldr
    (fun note acc =>
      match normalizeToPitchClass note.noteName with
      | some pitchClass => (pitchClass, note.durationMs) :: acc
      | none => acc) []

/-- The `totalDuration` accumulator of the aggregation loop. -/
def totalDurationOf (notes : List NoteWithDuration) : ℚ :=
  notes.foldl
    (fun acc note =>
      match normalizeToPitchClass note.noteName with
      | some _ => acc + note.durationMs
      | none => acc) 0

/-- `normalizedNotes[0]?.pitchClass ?? null`. -/
def firstNoteOf (notes : List NoteWithDuration) : Option String :=
  (normalizedNotesOf notes).head?.map Prod.fst

/-- `normalizedNotes[normalizedNotes.length - 1]?.pitchClass ?? null`. -/
def lastNoteOf (notes : List NoteWithDuration) : Option String :=
  (normalizedNotesOf notes).getLast?.map Prod.fst

/-- The `scores` array: for each root (chromatic order) and each of the
two ranked modes (major before minor), the scored hypothesis. -/
def allScores (noteWeights : List (String × ℚ)) (totalDuration : ℚ)
    (firstNote lastNote : Option String) : List ScoredKey :=
  PITCH_CLASSES.flatMap fun root =>
    [Mode.major, Mode.minor].map fun mode =>
      { key := root, mode := mode,
        score := scoreKeyWithDuration root mode noteWeights totalDuration firstNote lastNote }

/-- Insert into a descending-sorted list, after every element with a
greater-or-equal score (stable). -/
def insertByScore (x : ScoredKey) : List ScoredKey → List ScoredKey
  | [] => [x]
  | y :: ys => if y.score ≤ x.score then x :: y :: ys else y :: insertByScore x ys

/-- `scores.sort((a, b) => b.score - a.score)`: the stable descending
sort (insertion sort formulation; JS `sort` is stable, and all stable
sorts under this comparator agree). -/
def sortByScoreDesc : List ScoredKey → List ScoredKey
  | [] => []
  | x :: xs => insertByScore x (sortByScoreDesc xs)

/-- `Math.round(x * 100) / 100`: rounding to two decimal places, applied
to every confidence and score stored in a `KeyDetectionResult`. -/
def round2 (x : ℚ) : ℚ :=
  (jsRound (x * 100) : ℚ) / 100

/-- The `scores` array of `analyzeKeyWithDuration` after ranking. -/
def rankedScoresOf (notes : List NoteWithDuration) : List ScoredKey :=
  sortByScoreDesc (allScores (noteWeightsOf notes) (totalDurationOf notes)
    (firstNoteOf notes) (lastNoteOf notes))

/-- Steps 4–6 of `analyzeKeyWithDuration`: build the result from the
two top-ranked hypotheses. -/
def mkAnalysisResult (noteWeights : List (String × ℚ)) (totalDuration : ℚ)
    (best secondBest : ScoredKey) : KeyAnalysisResult :=
  let confidence := calculateScaleFit best.key best.mode noteWeights totalDuration
  let isRelative := areRelativeKeys best secondBest
  let scoreRatio := secondBest.score / best.score
  let isAmbiguous := isRelative && decide (scoreRatio > 85 / 100)
  let primary : KeyDetectionResult :=
    { key := best.key, mode := best.mode,
      confidence := round2 confidence,
      score := round2 best.score,
      scaleNotes := getScaleNotes best.key best.mode }
  let alternative : Option KeyDetectionResult :=
    if isRelative && decide (scoreRatio > 7 / 10) then
      let altConfidence := calculateScaleFit secondBest.key secondBest.mode noteWeights totalDuration
      some { key := secondBest.key, mode := secondBest.mode,
             confidence := round2 altConfidence,
             score := round2 secondBest.score,
             scaleNotes := getScaleNotes secondBest.key secondBest.mode }
    else none
  { primary := primary, alternative := alternative, isAmbiguous := isAmbiguous }

/-- `analyzeKeyWithDuration`: returns `none` for an empty input, for
input in which no note normalizes to a pitch class, and when the
top-ranked score is ≤ 0; otherwise the analysis result.  The ranked
array always has 24 entries, so the two top entries always exist (the
fallthrough `none` arm is dead code). -/
def analyzeKeyWithDuration (notes : List NoteWithDuration) : Option KeyAnalysisResult :=
  if notes = [] then none
  else if noteWeightsOf notes = [] then none
  else
    match rankedScoresOf notes with
    | best :: secondBest :: _ =>
      if best.score ≤ 0 then none
      else some (mkAnalysisResult (noteWeightsOf notes) (totalDurationOf notes) best secondBest)
    | _ => none

end KeyDetection

namespace KeyDetection

/-! ### The scoring formula as the spec states it (§4.5 step 2)

Definitions written from the spec's words, to be compared with
`scoreKeyWithDuration`: per pitch class with weight `w` seconds, `+2w`
if in the scale, plus `+5w` for the tonic, `+3w` for the fifth degree,
`+2w` for the third degree, `+1w` for the leading tone, `−1.5w` outside
the scale; a flat +2 / +3 bonus when the first / last note is the tonic;
the total damped by `(0.5 + 0.5 × scaleFitRatio)` and divided by the
total duration in seconds. -/

/-- Spec §4.5: the contribution of one pitch class with accumulated
weight `p.2` ms (`w = p.2 / 1000` seconds), as a sum of independent
bonuses. -/
def specEntryScore (root fifth third leadingTone : String) (scale : List String)
    (p : String × ℚ) : ℚ :=
  let w := p.2 / 1000
  if scale.contains p.1 then
    2 * w + (if p.1 = root then 5 * w else 0) + (if p.1 = fifth then 3 * w else 0) +
      (if p.1 = third then 2 * w else 0) + (if p.1 = leadingTone then 1 * w else 0)
  else -(3 / 2) * w

/-- Spec §4.5: the whole duration-weighted score of one hypothesis. -/
def specScoreKeyWithDuration (root : String) (mode : Mode)
    (noteWeights : List (String × ℚ)) (totalDuration : ℚ)
    (firstNote lastNote : Option String) : ℚ :=
  let scale := getScaleNotesSet root mode
  let base := (noteWeights.map
    (specEntryScore root (fifthOf root) (thirdOf root mode) (leadingToneOf root mode) scale)).sum
  let withBonus := base + (if firstNote = some root then 2 else 0) +
    (if lastNote = some root then 3 else 0)
  let fit := (noteWeights.map fun p => if scale.contains p.1 then p.2 else 0).sum /
    totalDuration
  withBonus * (1 / 2 + 1 / 2 * fit) / (totalDuration / 1000)

/-- For every pitch-class tonic and every mode, the tonic, fifth, third
and leading tone are four pairwise distinct pitch classes. -/
theorem degrees_distinct : ∀ root ∈ PITCH_CLASSES, ∀ mode : Mode,
    fifthOf root ≠ root ∧ thirdOf root mode ≠ root ∧ leadingToneOf root mode ≠ root ∧
    thirdOf root mode ≠ fifthOf root ∧ leadingToneOf root mode ≠ fifthOf root ∧
    leadingToneOf root mode ≠ thirdOf root mode := by decide

/-- With the four degrees pairwise distinct, one pass of the source's
`else if` bonus chain equals the spec's sum of independent bonuses. -/
theorem scoreStep_split (root fifth third leadingTone : String) (scale : List String)
    (h1 : fifth ≠ root) (h2 : third ≠ root) (h3 : leadingTone ≠ root)
    (h4 : third ≠ fifth) (h5 : leadingTone ≠ fifth) (h6 : leadingTone ≠ third)
    (acc : ℚ × ℚ) (p : String × ℚ) :
    scoreStep root fifth third leadingTone scale acc p =
      (acc.1 + specEntryScore root fifth third leadingTone scale p,
       acc.2 + (if scale.contains p.1 then p.2 else 0)) := by
  rw [scoreStep, specEntryScore]
  dsimp only
  by_cases hin : scale.contains p.1
  · by_cases hr : p.1 = root
    · simp only [if_pos hin, if_pos hr, if_neg (fun h : p.1 = fifth => h1 (h.symm.trans hr)),
        if_neg (fun h : p.1 = third => h2 (h.symm.trans hr)),
        if_neg (fun h : p.1 = leadingTone => h3 (h.symm.trans hr))]
      refine congrArg₂ Prod.mk ?_ ?_ <;> ring
    · by_cases hf : p.1 = fifth
      · simp only [if_pos hin, if_neg hr, if_pos hf,
          if_neg (fun h : p.1 = third => h4 (h.symm.trans hf)),
          if_neg (fun h : p.1 = leadingTone => h5 (h.symm.trans hf))]
        refine congrArg₂ Prod.mk ?_ ?_ <;> ring
      · by_cases ht : p.1 = third
        · simp only [if_pos hin, if_neg hr, if_neg hf, if_pos ht,
            if_neg (fun h : p.1 = leadingTone => h6 (h.symm.trans ht))]
          refine congrArg₂ Prod.mk ?_ ?_ <;> ring
        · by_cases hl : p.1 = leadingTone
          · simp only [if_pos hin, if_neg hr, if_neg hf, if_neg ht, if_pos hl]
            refine congrArg₂ Prod.mk ?_ ?_ <;> ring
          · simp only [if_pos hin, if_neg hr, if_neg hf, if_neg ht, if_neg hl]
            refine congrArg₂ Prod.mk ?_ ?_ <;> ring
  · simp only [if_neg hin]
    refine congrArg₂ Prod.mk ?_ ?_ <;> ring

/-- The scoring fold splits into the spec's two sums. -/
theorem score_foldl_split (root fifth third leadingTone : String) (scale : List String)
    (h1 : fifth ≠ root) (h2 : third ≠ root) (h3 : leadingTone ≠ root)
    (h4 : third ≠ fifth) (h5 : leadingTone ≠ fifth) (h6 : leadingTone ≠ third) :
    ∀ (l : List (String × ℚ)) (acc : ℚ × ℚ),
      l.foldl (scoreStep root fifth third leadingTone scale) acc =
        (acc.1 + (l.map (specEntryScore root fifth third leadingTone scale)).sum,
         acc.2 + (l.map fun p => if scale.contains p.1 then p.2 else 0).sum) := by
  intro l
  induction l with
  | nil => intro acc; simp
  | cons p rest ih =>
    intro acc
    rw [List.foldl_cons, ih, scoreStep_split root fifth third leadingTone scale
      h1 h2 h3 h4 h5 h6]
    simp only [List.map_cons, List.sum_cons, Prod.mk.injEq]
    exact ⟨by ring, by ring⟩

end KeyDetection

namespace KeyDetection

/-- C3: for every pitch-class tonic, every mode and every note-weights
mapping with a positive total duration, `scoreKeyWithDuration` computes
exactly the spec §4.5 formula: per pitch class with weight `w` seconds,
`+2w` in scale plus `+5w` tonic, `+3w` fifth, `+2w` third
(tonic+4 major-like, tonic+3 minor-like), `+1w` leading tone, `−1.5w`
outside; flat bonuses 2 and 3 for first/last note on the tonic; damped
by `(0.5 + 0.5 × scaleFitRatio)` and normalized by the duration in
seconds. -/
theorem scoreKeyWithDuration_matches_spec (root : String) (mode : Mode)
    (noteWeights : List (String × ℚ)) (totalDuration : ℚ)
    (firstNote lastNote : Option String)
    (hroot : root ∈ PITCH_CLASSES) (htd : 0 < totalDuration) :
    scoreKeyWithDuration root mode noteWeights totalDuration firstNote lastNote =
      specScoreKeyWithDuration root mode noteWeights totalDuration firstNote lastNote := by
  obtain ⟨h1, h2, h3, h4, h5, h6⟩ := degrees_distinct root hroot mode
  simp only [scoreKeyWithDuration, specScoreKeyWithDuration]
  rw [score_foldl_split root (fifthOf root) (thirdOf root mode) (leadingToneOf root mode)
    (getScaleNotesSet root mode) h1 h2 h3 h4 h5 h6 noteWeights (0, 0)]
  rw [if_pos htd, if_pos (show totalDuration / 1000 > 0 by positivity)]
  ring

/-- C3 witness: the match instantiated at (C, major) on the concrete
weights C ↦ 1000 ms, D# ↦ 500 ms. -/
theorem scoreKeyWithDuration_matches_spec_witness :
    scoreKeyWithDuration "C" Mode.major [("C", 1000), ("D#", 500)] 1500
      (some "C") (some "D#") =
    specScoreKeyWithDuration "C" Mode.major [("C", 1000), ("D#", 500)] 1500
      (some "C") (some "D#") :=
  scoreKeyWithDuration_matches_spec "C" Mode.major [("C", 1000), ("D#", 500)] 1500
    (some "C") (some "D#") (by decide) (by decide)

end KeyDetection

namespace KeyDetection

/-- Insertion preserves length. -/
theorem length_insertByScore (x : ScoredKey) (l : List ScoredKey) :
    (insertByScore x l).length = l.length + 1 := by
  induction l with
  | nil => rfl
  | cons y ys ih =>
    rw [insertByScore]
    split
    · rfl
    · rw [List.length_cons, ih, List.length_cons]

/-- Sorting preserves length. -/
theorem length_sortByScoreDesc (l : List ScoredKey) :
    (sortByScoreDesc l).length = l.length := by
  induction l with
  | nil => rfl
  | cons x xs ih => rw [sortByScoreDesc, length_insertByScore, ih, List.length_cons]

/-- The hypothesis space always has exactly 24 entries. -/
theorem length_allScores (noteWeights : List (String × ℚ)) (totalDuration : ℚ)
    (firstNote lastNote : Option String) :
    (allScores noteWeights totalDuration firstNote lastNote).length = 24 := by
  rfl

/-- The ranked score list always splits into a best, a second best and a
rest. -/
theorem rankedScoresOf_exists_two (notes : List NoteWithDuration) :
    ∃ best secondBest rest, rankedScoresOf notes = best :: secondBest :: rest := by
  have hlen : (rankedScoresOf notes).length = 24 := by
    rw [rankedScoresOf, length_sortByScoreDesc, length_allScores]
  match h : rankedScoresOf notes with
  | [] => rw [h] at hlen; cases hlen
  | [x] => rw [h] at hlen; cases hlen
  | best :: secondBest :: rest => exact ⟨best, secondBest, rest, rfl⟩

/-- `Map.set` never produces an empty map. -/
theorem addWeight_ne_nil (m : List (String × ℚ)) (key : String) (v : ℚ) :
    addWeight m key v ≠ [] := by
  match m with
  | [] => simp [addWeight]
  | (k0, v0) :: rest =>
    rw [addWeight]
    split <;> simp

/-- The aggregated weights are empty exactly when no note normalizes to
a pitch class. -/
theorem noteWeightsOf_eq_nil_iff (notes : List NoteWithDuration) :
    noteWeightsOf notes = [] ↔
      ∀ n ∈ notes, normalizeToPitchClass n.noteName = none := by
  have general : ∀ (l : List NoteWithDuration) (m : List (String × ℚ)),
      l.foldl
        (fun m note =>
          match normalizeToPitchClass note.noteName with
          | some pitchClass => addWeight m pitchClass note.durationMs
          | none => m) m = [] ↔
        (m = [] ∧ ∀ n ∈ l, normalizeToPitchClass n.noteName = none) := by
    intro l
    induction l with
    | nil => intro m; simp
    | cons n rest ih =>
      intro m
      rw [List.foldl_cons]
      rcases hn : normalizeToPitchClass n.noteName with _ | pc
      · rw [ih]
        constructor
        · rintro ⟨hm, hall⟩
          exact ⟨hm, fun x hx => by
            rcases List.mem_cons.1 hx with rfl | hx
            · exact hn
            · exact hall x hx⟩
        · rintro ⟨hm, hall⟩
          exact ⟨hm, fun x hx => hall x (List.mem_cons_of_mem _ hx)⟩
      · rw [ih]
        constructor
        · rintro ⟨hm, _⟩
          exact absurd hm (addWeight_ne_nil m pc n.durationMs)
        · rintro ⟨_, hall⟩
          have := hall n (List.mem_cons_self _ _)
          rw [hn] at this
          cases this
  rw [noteWeightsOf, general]
  simp

/-- The score of the top-ranked hypothesis. -/
def topScoreOf (notes : List NoteWithDuration) : ℚ :=
  ((rankedScoresOf notes).headD { key := "", mode := Mode.major, score := 0 }).score

/-- C5: `analyzeKeyWithDuration` returns `none` exactly when the input
is empty, or no note normalizes to a known pitch class, or the
top-ranked of the 24 hypothesis scores is ≤ 0; otherwise it returns a
result. -/
theorem analyzeKeyWithDuration_none_iff (notes : List NoteWithDuration) :
    analyzeKeyWithDuration notes = none ↔
      (notes = [] ∨ (∀ n ∈ notes, normalizeToPitchClass n.noteName = none) ∨
        topScoreOf notes ≤ 0) := by
  obtain ⟨best, secondBest, rest, hranked⟩ := rankedScoresOf_exists_two notes
  have htop : topScoreOf notes = best.score := by rw [topScoreOf, hranked]; rfl
  rw [analyzeKeyWithDuration]
  by_cases h1 : notes = []
  · simp [h1]
  · rw [if_neg h1]
    by_cases h2 : noteWeightsOf notes = []
    · rw [if_pos h2]
      exact iff_of_true rfl (Or.inr (Or.inl ((noteWeightsOf_eq_nil_iff notes).1 h2)))
    · rw [if_neg h2, hranked]
      dsimp only
      by_cases h3 : best.score ≤ 0
      · rw [if_pos h3]
        exact iff_of_true rfl (Or.inr (Or.inr (htop ▸ h3)))
      · rw [if_neg h3]
        constructor
        · intro hsome
          exact Option.noConfusion hsome
        · rintro (h | h | h)
          · exact absurd h h1
          · exact absurd ((noteWeightsOf_eq_nil_iff notes).2 h) h2
          · rw [htop] at h
            exact absurd h h3

end KeyDetection

/-- `jsRound` is monotone. -/
theorem jsRound_le_jsRound {x y : ℚ} (h : x ≤ y) : jsRound x ≤ jsRound y := by
  rw [jsRound_eq_round, jsRound_eq_round, round_eq, round_eq]
  exact Int.floor_le_floor (by linarith)

namespace KeyDetection

/-- Two-decimal rounding of a quantity ≤ 1 stays ≤ 1. -/
theorem round2_le_one {x : ℚ} (hx : x ≤ 1) : round2 x ≤ 1 := by
  rw [round2, div_le_one (by norm_num : (0:ℚ) < 100)]
  have h1 : jsRound (x * 100) ≤ jsRound 100 := jsRound_le_jsRound (by linarith)
  have h2 : jsRound (100 : ℚ) = 100 := by decide
  rw [h2] at h1
  exact_mod_cast h1

/-- `Map.set` adds its duration to the total of the map's values. -/
theorem sum_addWeight (m : List (String × ℚ)) (key : String) (v : ℚ) :
    ((addWeight m key v).map Prod.snd).sum = (m.map Prod.snd).sum + v := by
  induction m with
  | nil => simp [addWeight]
  | cons p rest ih =>
    rcases p with ⟨k0, v0⟩
    rw [addWeight]
    split
    · simp [add_assoc, add_comm v]
    · simp only [List.map_cons, List.sum_cons, ih]
      ring

/-- `Map.set` preserves non-negativity of the stored durations. -/
theorem addWeight_nonneg (m : List (String × ℚ)) (key : String) (v : ℚ)
    (hm : ∀ p ∈ m, 0 ≤ p.2) (hv : 0 ≤ v) : ∀ p ∈ addWeight m key v, 0 ≤ p.2 := by
  induction m with
  | nil =>
    intro p hp
    rw [addWeight, List.mem_singleton] at hp
    subst hp
    exact hv
  | cons q rest ih =>
    rcases q with ⟨k0, v0⟩
    intro p hp
    rw [addWeight] at hp
    split at hp
    · rcases List.mem_cons.1 hp with rfl | hp
      · have := hm (k0, v0) (List.mem_cons_self _ _)
        exact add_nonneg this hv
      · exact hm p (List.mem_cons_of_mem _ hp)
    · rcases List.mem_cons.1 hp with rfl | hp
      · exact hm (k0, v0) (List.mem_cons_self _ _)
      · exact ih (fun q hq => hm q (List.mem_cons_of_mem _ hq)) p hp

/-- The values stored in the aggregated weights sum to the total
duration. -/
theorem sum_noteWeightsOf (notes : List NoteWithDuration) :
    ((noteWeightsOf notes).map Prod.snd).sum = totalDurationOf notes := by
  have general : ∀ (l : List NoteWithDuration) (m : List (String × ℚ)) (a : ℚ),
      ((m.map Prod.snd).sum = a) →
      ((l.foldl
        (fun m note =>
          match normalizeToPitchClass note.noteName with
          | some pitchClass => addWeight m pitchClass note.durationMs
          | none => m) m).map Prod.snd).sum =
        l.foldl
          (fun acc note =>
            match normalizeToPitchClass note.noteName with
            | some _ => acc + note.durationMs
            | none => acc) a := by
    intro l
    induction l with
    | nil => intro m a h; simpa using h
    | cons n rest ih =>
      intro m a h
      rw [List.foldl_cons, List.foldl_cons]
      rcases hn : normalizeToPitchClass n.noteName with _ | pc
      · exact ih m a h
      · exact ih _ _ (by rw [sum_addWeight, h])
  exact general notes [] 0 (by simp)

/-- With non-negative input durations, all aggregated weights are
non-negative. -/
theorem noteWeightsOf_nonneg (notes : List NoteWithDuration)
    (h : ∀ n ∈ notes, 0 ≤ n.durationMs) : ∀ p ∈ noteWeightsOf notes, 0 ≤ p.2 := by
  have general : ∀ (l : List NoteWithDuration) (m : List (String × ℚ)),
      (∀ p ∈ m, 0 ≤ p.2) → (∀ n ∈ l, 0 ≤ n.durationMs) →
      ∀ p ∈ l.foldl
        (fun m note =>
          match normalizeToPitchClass note.noteName with
          | some pitchClass => addWeight m pitchClass note.durationMs
          | none => m) m, 0 ≤ p.2 := by
    intro l
    induction l with
    | nil => intro m hm _; simpa using hm
    | cons n rest ih =>
      intro m hm hl
      rw [List.foldl_cons]
      rcases hn : normalizeToPitchClass n.noteName with _ | pc
      · exact ih m hm (fun x hx => hl x (List.mem_cons_of_mem _ hx))
      · exact ih _
          (addWeight_nonneg m pc n.durationMs hm (hl n (List.mem_cons_self _ _)))
          (fun x hx => hl x (List.mem_cons_of_mem _ hx))
  exact general notes [] (by simp) h

/-- The in-scale fold is bounded by the total of the values. -/
theorem inScale_foldl_le_sum (scale : List String) (m : List (String × ℚ))
    (hm : ∀ p ∈ m, 0 ≤ p.2) :
    m.foldl (fun acc p => if scale.contains p.1 then acc + p.2 else acc) 0 ≤
      (m.map Prod.snd).sum := by
  have general : ∀ (l : List (String × ℚ)) (a : ℚ), (∀ p ∈ l, 0 ≤ p.2) →
      l.foldl (fun acc p => if scale.contains p.1 then acc + p.2 else acc) a ≤
        a + (l.map Prod.snd).sum := by
    intro l
    induction l with
    | nil => intro a _; simp
    | cons p rest ih =>
      intro a hl
      rw [List.foldl_cons, List.map_cons, List.sum_cons]
      have hrest := ih (if scale.contains p.1 then a + p.2 else a)
        (fun q hq => hl q (List.mem_cons_of_mem _ hq))
      refine le_trans hrest ?_
      have hp := hl p (List.mem_cons_self _ _)
      split
      · linarith
      · linarith
  simpa using general m 0 hm

/-- The scale-fit ratio of aggregated weights never exceeds 1. -/
theorem calculateScaleFit_le_one (root : String) (mode : Mode)
    (m : List (String × ℚ)) (td : ℚ)
    (hsum : (m.map Prod.snd).sum = td) (hm : ∀ p ∈ m, 0 ≤ p.2) :
    calculateScaleFit root mode m td ≤ 1 := by
  rw [calculateScaleFit]
  by_cases h : td = 0
  · rw [if_pos h]; norm_num
  · rw [if_neg h]
    dsimp only
    have htd : 0 < td := by
      rcases lt_or_eq_of_le (hsum ▸ List.sum_nonneg
        (fun x hx => by
          obtain ⟨p, hp, rfl⟩ := List.mem_map.1 hx
          exact hm p hp)) with h' | h'
      · exact h'
      · exact absurd h'.symm h
    rw [div_le_one htd]
    exact le_trans (inScale_foldl_le_sum _ m hm) (le_of_eq hsum)

end KeyDetection

namespace KeyDetection

/-- Elimination for a successful analysis: the ranked list splits, the
top score is positive, and the result is `mkAnalysisResult` of the two
leaders. -/
theorem analyze_some_elim (notes : List NoteWithDuration) (r : KeyAnalysisResult)
    (hr : analyzeKeyWithDuration notes = some r) :
    ∃ best secondBest rest, rankedScoresOf notes = best :: secondBest :: rest ∧
      ¬ best.score ≤ 0 ∧
      r = mkAnalysisResult (noteWeightsOf notes) (totalDurationOf notes) best secondBest := by
  obtain ⟨b, s, rest, hranked⟩ := rankedScoresOf_exists_two notes
  rw [analyzeKeyWithDuration] at hr
  by_cases h1 : notes = []
  · rw [if_pos h1] at hr; cases hr
  · rw [if_neg h1] at hr
    by_cases h2 : noteWeightsOf notes = []
    · rw [if_pos h2] at hr; cases hr
    · rw [if_neg h2, hranked] at hr
      dsimp only at hr
      by_cases h3 : b.score ≤ 0
      · rw [if_pos h3] at hr; cases hr
      · rw [if_neg h3] at hr
        exact ⟨b, s, rest, hranked, h3, (Option.some.inj hr).symm⟩

/-- C2 (amended): the primary confidence is the winning hypothesis's
scale-fit ratio rounded to two decimal places, and — for non-negative
durations — that ratio, and hence the reported confidence, is at most 1
(100%). -/
theorem primary_confidence_rounded_scale_fit (notes : List NoteWithDuration)
    (r : KeyAnalysisResult) (hr : analyzeKeyWithDuration notes = some r)
    (hpos : ∀ n ∈ notes, 0 ≤ n.durationMs) :
    ∃ best secondBest rest, rankedScoresOf notes = best :: secondBest :: rest ∧
      r.primary.key = best.key ∧ r.primary.mode = best.mode ∧
      r.primary.confidence = round2 (calculateScaleFit best.key best.mode
        (noteWeightsOf notes) (totalDurationOf notes)) ∧
      calculateScaleFit best.key best.mode (noteWeightsOf notes) (totalDurationOf notes) ≤ 1 ∧
      r.primary.confidence ≤ 1 := by
  obtain ⟨b, s, rest, hranked, hbpos, rfl⟩ := analyze_some_elim notes r hr
  have hfit : calculateScaleFit b.key b.mode (noteWeightsOf notes) (totalDurationOf notes) ≤ 1 :=
    calculateScaleFit_le_one _ _ _ _ (sum_noteWeightsOf notes) (noteWeightsOf_nonneg notes hpos)
  exact ⟨b, s, rest, hranked, rfl, rfl, rfl, hfit, round2_le_one hfit⟩

/-- One vocal second each of C, G and C♯; the winning key fits 2/3 of
the time. -/
def c2Notes : List NoteWithDuration := [⟨"C4", 1000⟩, ⟨"G4", 1000⟩, ⟨"C#4", 1000⟩]

/-- The analysis of `c2Notes`. -/
def c2Result : KeyAnalysisResult :=
  { primary := { key := "C", mode := Mode.major, confidence := 67 / 100,
                 score := 347 / 100,
                 scaleNotes := ["C", "D", "E", "F", "G", "A", "B"] },
    alternative := none, isAmbiguous := false }

/-- A pure C-major arpeggio: every note is in the winning scale. -/
def c2PerfectNotes : List NoteWithDuration := [⟨"C4", 1000⟩, ⟨"E4", 1000⟩, ⟨"G4", 1000⟩]

/-- The analysis of `c2PerfectNotes`: the confidence is exactly 100%. -/
def c2PerfectResult : KeyAnalysisResult :=
  { primary := { key := "C", mode := Mode.major, confidence := 1, score := 6,
                 scaleNotes := ["C", "D", "E", "F", "G", "A", "B"] },
    alternative := none, isAmbiguous := false }

/-- C2 counterexample: on `c2Notes` the winner's scale-fit ratio is 2/3
but the reported confidence is the rounded 0.67 ≠ 2/3; and on
`c2PerfectNotes` the confidence is exactly 1, not below 100%. -/
theorem primary_confidence_rounded_scale_fit_cex :
    analyzeKeyWithDuration c2Notes = some c2Result ∧
    (rankedScoresOf c2Notes).head?.map (fun b => (b.key, b.mode)) =
      some ("C", Mode.major) ∧
    calculateScaleFit "C" Mode.major (noteWeightsOf c2Notes) (totalDurationOf c2Notes) =
      2 / 3 ∧
    c2Result.primary.confidence ≠ 2 / 3 ∧
    analyzeKeyWithDuration c2PerfectNotes = some c2PerfectResult ∧
    ¬ c2PerfectResult.primary.confidence < 1 := by
  decide

/-- C2 witness: the amended statement instantiated on `c2Notes`. -/
theorem primary_confidence_rounded_scale_fit_witness :
    ∃ best secondBest rest, rankedScoresOf c2Notes = best :: secondBest :: rest ∧
      c2Result.primary.key = best.key ∧ c2Result.primary.mode = best.mode ∧
      c2Result.primary.confidence = round2 (calculateScaleFit best.key best.mode
        (noteWeightsOf c2Notes) (totalDurationOf c2Notes)) ∧
      calculateScaleFit best.key best.mode (noteWeightsOf c2Notes) (totalDurationOf c2Notes) ≤ 1 ∧
      c2Result.primary.confidence ≤ 1 :=
  primary_confidence_rounded_scale_fit c2Notes c2Result (by decide) (by decide)

end KeyDetection

namespace KeyDetection

/-- The alternative of a built result is present exactly when the two
leaders are relative keys and the score ratio exceeds 0.7. -/
theorem mkAnalysisResult_alternative_ne_none (w : List (String × ℚ)) (td : ℚ)
    (b s : ScoredKey) :
    (mkAnalysisResult w td b s).alternative ≠ none ↔
      (areRelativeKeys b s = true ∧ s.score / b.score > 7 / 10) := by
  rw [mkAnalysisResult]
  dsimp only
  split
  next hc =>
    rw [Bool.and_eq_true] at hc
    exact iff_of_true (fun h => Option.noConfusion h) ⟨hc.1, of_decide_eq_true hc.2⟩
  next hc =>
    refine iff_of_false (fun h => h rfl) ?_
    rintro ⟨h1, h2⟩
    exact hc (by rw [Bool.and_eq_true]; exact ⟨h1, decide_eq_true h2⟩)

/-- When present, the alternative reports the second leader with its own
rounded scale fit as confidence. -/
theorem mkAnalysisResult_alternative_eq (w : List (String × ℚ)) (td : ℚ)
    (b s : ScoredKey) (alt : KeyDetectionResult)
    (halt : (mkAnalysisResult w td b s).alternative = some alt) :
    alt.key = s.key ∧ alt.mode = s.mode ∧
      alt.confidence = round2 (calculateScaleFit s.key s.mode w td) := by
  rw [mkAnalysisResult] at halt
  dsimp only at halt
  split at halt
  · rw [Option.some.injEq] at halt
    subst halt
    exact ⟨rfl, rfl, rfl⟩
  · cases halt

/-- The ambiguity flag of a built result holds exactly when the two
leaders are relative keys and the score ratio exceeds 0.85. -/
theorem mkAnalysisResult_isAmbiguous (w : List (String × ℚ)) (td : ℚ)
    (b s : ScoredKey) :
    (mkAnalysisResult w td b s).isAmbiguous = true ↔
      (areRelativeKeys b s = true ∧ s.score / b.score > 85 / 100) := by
  rw [mkAnalysisResult]
  dsimp only
  rw [Bool.and_eq_true, decide_eq_true_eq]

/-- C4 (amended): the alternative is present exactly when the
second-ranked hypothesis is the relative key of the best and its score
exceeds 70% of the best score; in that case its confidence is its own
scale-fit ratio rounded to two decimal places; and `isAmbiguous` holds
exactly when the second-ranked hypothesis is the relative key and its
score exceeds 85% of the best score. -/
theorem alternative_and_ambiguity_conditions (notes : List NoteWithDuration)
    (r : KeyAnalysisResult) (hr : analyzeKeyWithDuration notes = some r) :
    ∃ best secondBest rest, rankedScoresOf notes = best :: secondBest :: rest ∧
      (r.alternative ≠ none ↔
        (areRelativeKeys best secondBest = true ∧
          7 / 10 * best.score < secondBest.score)) ∧
      (∀ alt, r.alternative = some alt →
        alt.key = secondBest.key ∧ alt.mode = secondBest.mode ∧
        alt.confidence = round2 (calculateScaleFit secondBest.key secondBest.mode
          (noteWeightsOf notes) (totalDurationOf notes))) ∧
      (r.isAmbiguous = true ↔
        (areRelativeKeys best secondBest = true ∧
          85 / 100 * best.score < secondBest.score)) := by
  obtain ⟨b, s, rest, hranked, hbpos, rfl⟩ := analyze_some_elim notes r hr
  have hb : 0 < b.score := lt_of_not_le hbpos
  refine ⟨b, s, rest, hranked, ?_, ?_, ?_⟩
  · rw [mkAnalysisResult_alternative_ne_none]
    exact and_congr_right fun _ => lt_div_iff₀ hb
  · exact fun alt halt => mkAnalysisResult_alternative_eq _ _ b s alt halt
  · rw [mkAnalysisResult_isAmbiguous]
    exact and_congr_right fun _ => lt_div_iff₀ hb

/-- One second each of C, E, G, A, B and C♯: C major wins, A minor is
the close relative (score ratio ≈ 0.91), both fitting 5/6 of the
duration. -/
def c4Notes : List NoteWithDuration :=
  [⟨"C4", 1000⟩, ⟨"E4", 1000⟩, ⟨"G4", 1000⟩, ⟨"A4", 1000⟩, ⟨"B4", 1000⟩, ⟨"C#4", 1000⟩]

/-- The analysis of `c4Notes`. -/
def c4Result : KeyAnalysisResult :=
  { primary := { key := "C", mode := Mode.major, confidence := 83 / 100,
                 score := 82 / 25,
                 scaleNotes := ["C", "D", "E", "F", "G", "A", "B"] },
    alternative := some { key := "A", mode := Mode.minor, confidence := 83 / 100,
                          score := 149 / 50,
                          scaleNotes := ["A", "B", "C", "D", "E", "F", "G"] },
    isAmbiguous := true }

/-- C4 counterexample: on `c4Notes` the alternative (A minor) is
reported with confidence 0.83, the rounding of its scale-fit ratio 5/6 —
not the ratio itself. -/
theorem alternative_and_ambiguity_conditions_cex :
    analyzeKeyWithDuration c4Notes = some c4Result ∧
    (rankedScoresOf c4Notes).head?.map (fun b => (b.key, b.mode)) =
      some ("C", Mode.major) ∧
    ((rankedScoresOf c4Notes).drop 1).head?.map (fun b => (b.key, b.mode)) =
      some ("A", Mode.minor) ∧
    calculateScaleFit "A" Mode.minor (noteWeightsOf c4Notes) (totalDurationOf c4Notes) =
      5 / 6 ∧
    c4Result.alternative.map (fun a => a.confidence) = some (83 / 100) ∧
    (83 : ℚ) / 100 ≠ 5 / 6 := by
  decide

/-- C4 witness: the amended statement instantiated on `c4Notes`. -/
theorem alternative_and_ambiguity_conditions_witness :
    ∃ best secondBest rest, rankedScoresOf c4Notes = best :: secondBest :: rest ∧
      (c4Result.alternative ≠ none ↔
        (areRelativeKeys best secondBest = true ∧
          7 / 10 * best.score < secondBest.score)) ∧
      (∀ alt, c4Result.alternative = some alt →
        alt.key = secondBest.key ∧ alt.mode = secondBest.mode ∧
        alt.confidence = round2 (calculateScaleFit secondBest.key secondBest.mode
          (noteWeightsOf c4Notes) (totalDurationOf c4Notes))) ∧
      (c4Result.isAmbiguous = true ↔
        (areRelativeKeys best secondBest = true ∧
          85 / 100 * best.score < secondBest.score)) :=
  alternative_and_ambiguity_conditions c4Notes c4Result (by decide)

end KeyDetection

namespace KeyDetection

/-- `normalizeToPitchClass` only inspects the string's characters. -/
theorem normalize_of_data (s : String) (l : List Char) (h : s.data = l) :
    normalizeToPitchClass s = normalizeToPitchClass (String.mk l) := by
  cases s
  cases h
  rfl

/-- C10: every flat-spelled note name (upper- or lower-case letter, with
any trailing text such as an octave digit) normalizes to its sharp
equivalent; the sharp spellings B♯ and E♯ normalize to `none` (they are
silently excluded, not mapped to C or F); and any string that does not
start with a letter A–G (or a–g) normalizes to `none`. -/
theorem flat_normalization_and_sharp_exclusion :
    (∀ s : String, normalizeToPitchClass ("Db" ++ s) = some "C#") ∧
    (∀ s : String, normalizeToPitchClass ("db" ++ s) = some "C#") ∧
    (∀ s : String, normalizeToPitchClass ("Eb" ++ s) = some "D#") ∧
    (∀ s : String, normalizeToPitchClass ("eb" ++ s) = some "D#") ∧
    (∀ s : String, normalizeToPitchClass ("Fb" ++ s) = some "E") ∧
    (∀ s : String, normalizeToPitchClass ("fb" ++ s) = some "E") ∧
    (∀ s : String, normalizeToPitchClass ("Gb" ++ s) = some "F#") ∧
    (∀ s : String, normalizeToPitchClass ("gb" ++ s) = some "F#") ∧
    (∀ s : String, normalizeToPitchClass ("Ab" ++ s) = some "G#") ∧
    (∀ s : String, normalizeToPitchClass ("ab" ++ s) = some "G#") ∧
    (∀ s : String, normalizeToPitchClass ("Bb" ++ s) = some "A#") ∧
    (∀ s : String, normalizeToPitchClass ("bb" ++ s) = some "A#") ∧
    (∀ s : String, normalizeToPitchClass ("Cb" ++ s) = some "B") ∧
    (∀ s : String, normalizeToPitchClass ("cb" ++ s) = some "B") ∧
    (∀ s : String, normalizeToPitchClass ("B#" ++ s) = none) ∧
    (∀ s : String, normalizeToPitchClass ("b#" ++ s) = none) ∧
    (∀ s : String, normalizeToPitchClass ("E#" ++ s) = none) ∧
    (∀ s : String, normalizeToPitchClass ("e#" ++ s) = none) ∧
    (∀ s : String, (∀ c ∈ s.data.head?, isNoteLetterChar c = false) →
      normalizeToPitchClass s = none) := by
  refine ⟨?_, ?_, ?_, ?_, ?_, ?_, ?_, ?_, ?_, ?_, ?_, ?_, ?_, ?_, ?_, ?_, ?_, ?_, ?_⟩
  all_goals try (intro s; rw [normalize_of_data _ _ (by rw [String.data_append])]; rfl)
  intro s h
  rcases hd : s.data with _ | ⟨c, rest⟩
  · rw [normalize_of_data s [] hd]
    rfl
  · have hc := h c (by rw [hd]; rfl)
    rw [normalize_of_data s (c :: rest) hd]
    simp [normalizeToPitchClass, matchNoteStart, hc]

end KeyDetection
